import Mathlib

/-!
Verification of the dependency-graph analyzer (Project2.py).

Shallow embedding conventions:
* Python dicts with string keys are association lists `List (String × α)`
  (first binding wins on lookup, insertion appends at the end, matching
  CPython dict semantics).
* Python sets of strings are duplicate-free `List String` used through
  membership; `insertS` models `set.add`, `List.erase` models `set.remove`.
* `collections.deque` with `appendleft` is a plain list with cons.
* Raised exceptions are modelled with `Except String`; a `try/except`
  around a call becomes a `match` on the `Except` value.
* The recursion of `build_dependency_graph_dfs` is driven by the quantity
  `remaining = max_depth - current_depth`: the source's guard
  `current_depth >= params['max_depth']` is exactly `remaining = 0`, and the
  recursive call at `current_depth + 1` is a call at `remaining - 1`.
* The `viz_graph` node/edge events go to the external renderer (out of the
  core, per the specification) and are not part of the modelled state.
* `_dfs_sort` in the source terminates because the visited set grows on
  every recursive call; the embedding makes this explicit with a fuel
  argument, and `get_dependency_load_order` supplies fuel that provably
  suffices (one more than the number of node occurrences in the graph),
  so the `noFuel` branch is unreachable.
-/

/-- An adjacency graph: package name mapped to its list of direct
dependencies (dict of sets in the source). -/
abbrev Graph := List (String × List String)

/-- Lookup in an association list, modelling `d[k]` / `d.get(k)`. -/
def lookupA {α : Type} (l : List (String × α)) (k : String) : Option α :=
  (l.find? (fun q => q.1 == k)).map (·.2)

/-- Model of `set.add`: insert a string into a set-as-list if absent. -/
def insertS (a : String) (l : List String) : List String :=
  if a ∈ l then l else a :: l

/-- Decidable substring containment, modelling Python `sub in s`. -/
def strContainsSub (hay sub : String) : Bool :=
  (List.range (hay.toList.length + 1)).any
    (fun i => ((hay.toList.drop i).take sub.toList.length) == sub.toList)

/-- A registry package document, the part of the npm JSON that
`get_direct_dependencies_npm` reads: the optional `dist-tags` section
(tag name mapped to version) and the optional `versions` section
(version mapped to its optional `dependencies` mapping). -/
structure NpmDoc where
  distTags : Option (List (String × String))
  versions : Option (List (String × Option (List (String × String))))
deriving DecidableEq

/-- Tail of `get_direct_dependencies_npm` (source lines 103-108): the
`not version_to_fetch` falsiness test, the membership test against
`package_data.get('versions', {})`, and the final
`versions[version_to_fetch].get('dependencies', {})`. -/
def finishNpm (pd : NpmDoc) (version_to_fetch : Option String) :
    List (String × String) :=
  match version_to_fetch with
  | none => []
  | some v =>
    if v = "" then []
    else match lookupA (pd.versions.getD []) v with
      | none => []
      | some vd => vd.getD []

/-- Embedding of `get_direct_dependencies_npm` (source lines 79-108).
The input is `Option NpmDoc`: `none` models a falsy `package_data`
(`None` from a failed fetch, or an empty document). An `.error` result
models an uncaught Python exception: the source's conditions
`if 'versions' and package_data['versions']` (line 89) and
`elif 'versions'` (line 100) test the truthy string literal `'versions'`,
so they unconditionally evaluate `package_data['versions']`, which raises
`KeyError` when the key is absent; line 101 additionally raises
`IndexError` when the versions dict is empty. -/
def get_direct_dependencies_npm (package_data : Option NpmDoc)
    (version_spec : String) : Except String (List (String × String)) :=
  match package_data with
  | none => .ok []
  | some pd =>
    if version_spec = "latest" then
      match pd.distTags.bind (fun t => lookupA t "latest") with
      | some v => .ok (finishNpm pd (some v))
      | none =>
        match pd.versions with
        | none => .error "KeyError: versions"
        | some vs =>
          if vs.isEmpty then .ok []
          else .ok (finishNpm pd ((vs.map (·.1)).getLast?))
    else if (lookupA (pd.versions.getD []) version_spec).isSome then
      .ok (finishNpm pd (some version_spec))
    else
      match pd.distTags.bind (fun t => lookupA t "latest") with
      | some v => .ok (finishNpm pd (some v))
      | none =>
        match pd.versions with
        | none => .error "KeyError: versions"
        | some vs =>
          match (vs.map (·.1)).getLast? with
          | none => .error "IndexError: list index out of range"
          | some v => .ok (finishNpm pd (some v))

/-- The configuration handed to the traversal (validated elsewhere).
`fixture` is the cached `test_graph` JSON document of the `test_file`
backend; `registry` abstracts `fetch_package_data_npm`, with `none`
modelling a failed or empty fetch (the source returns `None` on
`URLError` / `JSONDecodeError`). -/
structure Params where
  package_name : String
  repo_mode : String
  repo_source : String
  package_version : String
  max_depth : Nat
  filter_substring : String
  fixture : List (String × List String)
  registry : String → Option NpmDoc

/-- Key list of a Python dict comprehension over a list: first
occurrence kept, insertion order preserved, duplicates collapsed. -/
def dictKeys (l : List String) : List String :=
  l.foldl (fun acc d => if d ∈ acc then acc else acc ++ [d]) []

/-- Embedding of `fetch_dependencies` (source lines 110-130). An
`.error` result models a raised exception: `test_url` mode raises
`NotImplementedError` (line 128), and `real` mode propagates whatever
`get_direct_dependencies_npm` raises. The dict comprehension of the
`test_file` branch collapses duplicate dependency names. -/
def fetch_dependencies (package_name version_spec : String)
    (params : Params) : Except String (List (String × String)) :=
  if params.repo_mode = "real" then
    get_direct_dependencies_npm (params.registry package_name) version_spec
  else if params.repo_mode = "test_file" then
    .ok ((dictKeys ((lookupA params.fixture package_name).getD [])).map
      (fun d => (d, "test_ver")))
  else if params.repo_mode = "test_url" then
    .error "NotImplementedError: test_url mode does not support recursive traversal"
  else .ok []

/-- The mutable state threaded through `build_dependency_graph_dfs`:
the adjacency graph, the path-set `visited`, the memoization set
`resolved`, plus three observation channels: `fetchLog` records each
call to `fetch_dependencies` (the Dependency Source call counter),
`errLog` records the messages of exceptions caught by the
`except Exception` handler at source lines 165-167, and `trace`
snapshots the pair (path-set, resolved-set) after every mutation of
either set. -/
structure BState where
  graph : Graph
  visited : List String
  resolved : List String
  fetchLog : List String
  errLog : List String
  trace : List (List String × List String)
deriving DecidableEq

/-- Snapshot the current (path-set, resolved-set) pair onto the trace. -/
def snap (st : BState) : BState :=
  { st with trace := st.trace ++ [(st.visited, st.resolved)] }

/-- Model of `if package_name not in graph: graph[package_name] = set()`
(source lines 160-161): dict insertion appends the new key at the end. -/
def ensureKey (g : Graph) (pkg : String) : Graph :=
  if (lookupA g pkg).isSome then g else g ++ [(pkg, [])]

/-- Model of `graph[package_name].add(dep_name)` (source line 170):
add `d` to the dependency set stored under `pkg`. -/
def addDep (g : Graph) (pkg d : String) : Graph :=
  g.map (fun q => if q.1 == pkg then
    (q.1, if d ∈ q.2 then q.2 else q.2 ++ [d]) else q)

/-- The `for dep_name, dep_version_spec in dependencies.items()` loop of
`build_dependency_graph_dfs` (source lines 169-182), parametrized by the
recursive call `f` at depth `current_depth + 1`. -/
def buildDeps (f : String → String → BState → BState) (pkg : String) :
    List (String × String) → BState → BState
  | [], st => st
  | (d, dvs) :: rest, st =>
      buildDeps f pkg rest (f d dvs { st with graph := addDep st.graph pkg d })

/-- Embedding of `build_dependency_graph_dfs` (source lines 133-185).
The first argument after the parameters is
`remaining = max_depth - current_depth`; the depth guard
`current_depth >= params['max_depth']` (line 153) is `remaining = 0` and
the recursive call at `current_depth + 1` runs at `remaining - 1`.
Guard order follows the source: substring filter (145), path-set check
(150), depth guard (153), resolved-set check (156); then the node is
added to the path-set, its adjacency entry is created, the Dependency
Source is called inside try/except (any exception degrades to no
dependencies, logged), the dependency loop runs, and finally the node is
removed from the path-set and added to the resolved-set. -/
def build_dependency_graph_dfs (p : Params) :
    Nat → String → String → BState → BState
  | remaining, package_name, version_spec, st =>
    if p.filter_substring ≠ "" ∧ strContainsSub package_name p.filter_substring then st
    else if package_name ∈ st.visited then st
    else match remaining with
    | 0 => st
    | r + 1 =>
      if package_name ∈ st.resolved then st
      else
        let st1 := snap { st with visited := insertS package_name st.visited,
                                  graph := ensureKey st.graph package_name }
        let fr := fetch_dependencies package_name version_spec p
        let st2 := { st1 with
          fetchLog := st1.fetchLog ++ [package_name],
          errLog := st1.errLog ++ (match fr with | .ok _ => [] | .error e => [e]) }
        let deps := match fr with | .ok ds => ds | .error _ => []
        let st3 := buildDeps
          (fun d dvs s => build_dependency_graph_dfs p r d dvs s)
          package_name deps st2
        let st4 := snap { st3 with visited := st3.visited.erase package_name }
        snap { st4 with resolved := insertS package_name st4.resolved }

/-- The initial builder state of `main` (source lines 272-274), with the
initial (empty, empty) set pair recorded on the trace. -/
def init_bstate : BState := ⟨[], [], [], [], [], [([], [])]⟩

/-- The top-level builder invocation of `main` (source lines 288-297):
root package at `current_depth = 0`, i.e. `remaining = max_depth`. -/
def build_from_root (params : Params) (root : String) : BState :=
  build_dependency_graph_dfs params params.max_depth root
    params.package_version init_bstate

/-! ## Topological sorter -/

/-- The mutable state of `_dfs_sort`: the visited set, the recursion
stack (gray set), and the load order (deque, prepend-at-front). -/
structure SortSt where
  visited : List String
  stack : List String
  order : List String
deriving DecidableEq

/-- Outcome of `_dfs_sort`: normal return, the `ValueError` raised on a
detected cycle (source line 202, recording the offending edge), or fuel
exhaustion (unreachable for the fuel chosen by
`get_dependency_load_order`). -/
inductive SortRes where
  | ok (st : SortSt)
  | cycleErr (node dep : String)
  | noFuel
deriving DecidableEq

/-- The `for dependency in graph[node]` loop of `_dfs_sort` (source
lines 198-202), parametrized by the recursive call `f`. -/
def sortDeps (f : String → SortSt → SortRes) (parent : String) :
    List String → SortSt → SortRes
  | [], st => .ok st
  | d :: rest, st =>
    if d ∉ st.visited then
      match f d st with
      | .ok st' => sortDeps f parent rest st'
      | e => e
    else if d ∈ st.stack then .cycleErr parent d
    else sortDeps f parent rest st

/-- Embedding of `_dfs_sort` (source lines 188-205), with fuel driving
the recursion. A node with no adjacency entry is handled by lines
189-193; otherwise the node is marked visited and gray, its dependencies
are processed, and on completion it is removed from the stack and
prepended to the load order. -/
def dfs_sort (g : Graph) : Nat → String → SortSt → SortRes
  | 0, _, _ => .noFuel
  | fuel + 1, node, st =>
    match lookupA g node with
    | none =>
      let st' := if node ∈ st.visited then st
                 else { st with order := node :: st.order }
      .ok { st' with visited := insertS node st'.visited }
    | some ds =>
      let st1 := { st with visited := insertS node st.visited,
                           stack := insertS node st.stack }
      match sortDeps (fun d s => dfs_sort g fuel d s) node ds st1 with
      | .ok st2 => .ok { st2 with stack := st2.stack.erase node,
                                  order := node :: st2.order }
      | e => e

/-- The node universe of the graph: `all_nodes = set(graph.keys())`
updated with every dependency set (source lines 210-212); membership is
all that the source uses. -/
def allNodesOf : Graph → List String
  | [] => []
  | q :: rest => q.1 :: q.2 ++ allNodesOf rest

/-- Embedding of `get_dependency_load_order` (source lines 208-228):
absent start node yields `[]`; a `ValueError` (cycle) is caught and
yields `[]`; otherwise the deque is returned as a list. The fuel
`(allNodesOf g).length + 1` is proven sufficient below, so the `noFuel`
branch never fires. -/
def get_dependency_load_order (start : String) (g : Graph) : List String :=
  if start ∈ allNodesOf g then
    match dfs_sort g ((allNodesOf g).length + 1) start ⟨[], [], []⟩ with
    | .ok st => st.order
    | _ => []
  else []

/-- The core pipeline of `main` after configuration (source lines
288-305): build the graph from the root, then compute the load order. -/
def run_build_and_order (params : Params) (root : String) :
    Graph × List String :=
  let st := build_from_root params root
  (st.graph, get_dependency_load_order root st.graph)

/-! ## Concrete configurations used by the testable properties -/

/-- A `test_file` configuration with the given fixture and depth bound,
empty filter, as produced by a validated config. -/
def test_file_params (fixture : List (String × List String))
    (max_depth : Nat) : Params :=
  ⟨"A", "test_file", "fixture.json", "latest", max_depth, "", fixture,
   fun _ => none⟩

/-- The fixture of the determinism property: A depends on B and C, B on
nothing, C on B. -/
def fixtureABC : List (String × List String) :=
  [("A", ["B", "C"]), ("B", []), ("C", ["B"])]

/-- The diamond fixture: A depends on B and C, both depend on D. -/
def fixtureDiamond : List (String × List String) :=
  [("A", ["B", "C"]), ("B", ["D"]), ("C", ["D"]), ("D", [])]

/-- The direct-cycle fixture: A depends on B and B on A. -/
def fixtureCycle : List (String × List String) :=
  [("A", ["B"]), ("B", ["A"])]

/-- Fixture where X is first reached exactly at the depth limit (via B)
and later at a smaller depth (directly from A). -/
def fixtureLate : List (String × List String) :=
  [("A", ["B", "X"]), ("B", ["X"]), ("X", [])]

/-- A configuration whose traversal mode is `test_url`. -/
def test_url_params : Params :=
  ⟨"A", "test_url", "http://example.test/reg", "latest", 3, "", [],
   fun _ => none⟩

/-! ## Specification-level predicates for the sorter -/

/-- A dependency edge of the adjacency graph: `d` is a member of the
dependency set stored under `n`. -/
def EdgeOf (g : Graph) (n d : String) : Prop :=
  ∃ ds, lookupA g n = some ds ∧ d ∈ ds

/-- Reachability from a start node along dependency edges. -/
inductive Reaches (g : Graph) (s : String) : String → Prop
  | refl : Reaches g s s
  | step {n d : String} : Reaches g s n → EdgeOf g n d → Reaches g s d

/-- The load order produced so far is dependents-first: at every
decomposition around an element with an adjacency entry, all of its
direct dependencies occur strictly later in the list. -/
def OrderedOk (g : Graph) (L : List String) : Prop :=
  ∀ l1 n l2, L = l1 ++ n :: l2 → ∀ ds, lookupA g n = some ds →
    ∀ d ∈ ds, d ∈ l2

/-- The three-coloring invariant of `_dfs_sort`: the emitted order has
no duplicates, contains exactly the black nodes (visited and not on the
recursion stack), and is dependents-first. -/
def SortInv (g : Graph) (st : SortSt) : Prop :=
  st.order.Nodup ∧
  (∀ x, x ∈ st.order ↔ (x ∈ st.visited ∧ x ∉ st.stack)) ∧
  OrderedOk g st.order

/-- Number of node occurrences of the graph not yet visited; the fuel
measure of `dfs_sort`. -/
def sortMeasure (g : Graph) (V : List String) : Nat :=
  ((allNodesOf g).filter (fun x => decide (x ∉ V))).length

/-- Postcondition of a successful `_dfs_sort` call on `node`: the
recursion stack is restored, the visited set and the order only grow,
the node itself ends visited and emitted, and the coloring invariant is
maintained. -/
def SortPost (g : Graph) (node : String) (st st' : SortSt) : Prop :=
  st'.stack = st.stack ∧
  (∀ x ∈ st.visited, x ∈ st'.visited) ∧ node ∈ st'.visited ∧
  (∀ x ∈ st.order, x ∈ st'.order) ∧ node ∈ st'.order ∧
  SortInv g st'

/-- Disjointness invariant of the Graph Builder state: the path-set and
the resolved-set never share a package, neither currently nor in any
recorded trace snapshot. -/
def TraceInv (st : BState) : Prop :=
  (∀ x ∈ st.visited, x ∉ st.resolved) ∧
  (∀ pr ∈ st.trace, ∀ x ∈ pr.1, x ∉ pr.2)

/-! ## Builder lemmas -/

/-- Membership through `insertS`. -/
lemma mem_insertS {x a : String} {l : List String} :
    x ∈ insertS a l ↔ x = a ∨ x ∈ l := by
  unfold insertS
  split
  · constructor
    · exact fun h => Or.inr h
    · rintro (rfl | h) <;> assumption
  · simp [List.mem_cons]

/-- A call whose depth has reached the bound returns the state
unchanged, whatever guard fires first. -/
lemma build_depth_zero (p : Params) (pkg vs : String) (st : BState) :
    build_dependency_graph_dfs p 0 pkg vs st = st := by
  unfold build_dependency_graph_dfs
  split
  · rfl
  · split <;> rfl

/-- A call on a package already on the path-set returns the state
unchanged. -/
lemma build_stopped_visited (p : Params) (r : Nat) (pkg vs : String)
    (st : BState) (h : pkg ∈ st.visited) :
    build_dependency_graph_dfs p r pkg vs st = st := by
  cases r with
  | zero => exact build_depth_zero p pkg vs st
  | succ r =>
    unfold build_dependency_graph_dfs
    split
    · rfl
    · simp [h]

/-- A call on a package already in the resolved-set returns the state
unchanged. -/
lemma build_stopped_resolved (p : Params) (r : Nat) (pkg vs : String)
    (st : BState) (h : pkg ∈ st.resolved) :
    build_dependency_graph_dfs p r pkg vs st = st := by
  cases r with
  | zero => exact build_depth_zero p pkg vs st
  | succ r =>
    unfold build_dependency_graph_dfs
    split
    · rfl
    · split
      · rfl
      · simp [h]

/-- A call on a package matching the substring filter returns the state
unchanged. -/
lemma build_stopped_filter (p : Params) (r : Nat) (pkg vs : String)
    (st : BState)
    (h : p.filter_substring ≠ "" ∧ strContainsSub pkg p.filter_substring) :
    build_dependency_graph_dfs p r pkg vs st = st := by
  unfold build_dependency_graph_dfs
  exact if_pos h

/-- The dependency loop does not touch the path-set when the recursive
call does not. -/
lemma buildDeps_visited (f : String → String → BState → BState)
    (pkg : String) (hf : ∀ d dvs s, (f d dvs s).visited = s.visited) :
    ∀ ds st, (buildDeps f pkg ds st).visited = st.visited := by
  intro ds
  induction ds with
  | nil => intro st; rfl
  | cons q rest ih =>
    intro st
    cases q with
    | mk d dvs => simp [buildDeps, ih, hf]

/-- Every call to the Graph Builder restores the path-set on return:
the element added on entry is removed on exit, and guarded-out calls
never modify it. -/
lemma build_visited (p : Params) :
    ∀ r pkg vs st,
      (build_dependency_graph_dfs p r pkg vs st).visited = st.visited := by
  intro r
  induction r with
  | zero => intro pkg vs st; rw [build_depth_zero]
  | succ r ih =>
    intro pkg vs st
    by_cases h1 : p.filter_substring ≠ "" ∧ strContainsSub pkg p.filter_substring
    · rw [build_stopped_filter p _ pkg vs st h1]
    · by_cases h2 : pkg ∈ st.visited
      · rw [build_stopped_visited p _ pkg vs st h2]
      · by_cases h3 : pkg ∈ st.resolved
        · rw [build_stopped_resolved p _ pkg vs st h3]
        · unfold build_dependency_graph_dfs
          rw [if_neg h1, if_neg h2]
          simp only [if_neg h3]
          simp only [snap]
          rw [buildDeps_visited _ _ (fun d dvs s => ih d dvs s)]
          simp [insertS, h2]

/-- Entering a node preserves the disjointness invariant: the package is
in neither set (both guards have fired negatively), so adding it to the
path-set and snapshotting keeps every recorded pair disjoint. -/
lemma traceInv_enter (pkg : String) (st : BState) (g2 : Graph)
    (h : TraceInv st) (h2 : pkg ∉ st.visited) (h3 : pkg ∉ st.resolved) :
    TraceInv (snap { st with visited := insertS pkg st.visited, graph := g2 }) := by
  obtain ⟨hd, htr⟩ := h
  have hins : ∀ x ∈ insertS pkg st.visited, x ∉ st.resolved := by
    intro x hx
    rcases mem_insertS.mp hx with rfl | hx'
    · exact h3
    · exact hd x hx'
  refine ⟨hins, ?_⟩
  intro pr hpr
  simp only [snap, List.mem_append, List.mem_singleton] at hpr
  rcases hpr with hpr | rfl
  · exact htr pr hpr
  · exact hins

/-- Finishing a node preserves the disjointness invariant: the package
is removed from the path-set before it is added to the resolved-set, so
no snapshot ever shows it in both. -/
lemma traceInv_finish (pkg : String) (v0 : List String) (st3 : BState)
    (h : TraceInv st3) (hv : st3.visited = pkg :: v0) (hp : pkg ∉ v0) :
    TraceInv (snap { snap { st3 with visited := st3.visited.erase pkg } with
      resolved := insertS pkg st3.resolved }) := by
  obtain ⟨hd, htr⟩ := h
  have hv0 : ∀ x ∈ v0, x ∉ st3.resolved := by
    intro x hx
    exact hd x (by rw [hv]; exact List.mem_cons_of_mem _ hx)
  have herase : st3.visited.erase pkg = v0 := by
    rw [hv, List.erase_cons_head]
  have hfin : ∀ x ∈ v0, x ∉ insertS pkg st3.resolved := by
    intro x hx hmem
    rcases mem_insertS.mp hmem with rfl | hmem'
    · exact hp hx
    · exact hv0 x hx hmem'
  constructor
  · intro x hx
    simp only [snap] at hx
    rw [herase] at hx
    exact hfin x hx
  · intro pr hpr
    simp only [snap, herase, List.mem_append, List.mem_singleton] at hpr
    rcases hpr with (hpr | rfl) | rfl
    · exact htr pr hpr
    · exact hv0
    · exact hfin

/-- The dependency loop preserves the disjointness invariant when the
recursive call does. -/
lemma buildDeps_traceInv (f : String → String → BState → BState)
    (pkg : String) (hf : ∀ d dvs s, TraceInv s → TraceInv (f d dvs s)) :
    ∀ ds st, TraceInv st → TraceInv (buildDeps f pkg ds st) := by
  intro ds
  induction ds with
  | nil => intro st h; exact h
  | cons q rest ih =>
    intro st h
    cases q with
    | mk d dvs =>
      exact ih _ (hf d dvs _ h)

/-- The Graph Builder preserves the disjointness invariant: if the
path-set and resolved-set are disjoint (now and in every recorded
snapshot), they stay so through the whole recursive traversal. -/
lemma build_traceInv (p : Params) :
    ∀ r pkg vs st, TraceInv st →
      TraceInv (build_dependency_graph_dfs p r pkg vs st) := by
  intro r
  induction r with
  | zero => intro pkg vs st h; rw [build_depth_zero]; exact h
  | succ r ih =>
    intro pkg vs st h
    by_cases h1 : p.filter_substring ≠ "" ∧ strContainsSub pkg p.filter_substring
    · rw [build_stopped_filter p _ pkg vs st h1]; exact h
    · by_cases h2 : pkg ∈ st.visited
      · rw [build_stopped_visited p _ pkg vs st h2]; exact h
      · by_cases h3 : pkg ∈ st.resolved
        · rw [build_stopped_resolved p _ pkg vs st h3]; exact h
        · unfold build_dependency_graph_dfs
          rw [if_neg h1, if_neg h2]
          simp only [if_neg h3]
          exact traceInv_finish pkg st.visited _
            (buildDeps_traceInv _ _ (fun d dvs s hs => ih d dvs s hs) _ _
              (traceInv_enter pkg st _ h h2 h3))
            (by
              rw [buildDeps_visited _ _ (fun d dvs s => build_visited p r d dvs s)]
              simp [snap, insertS, h2])
            h2

/-! ## Claim theorems: Graph Builder

The configuration validator bounds the traversal depth: `max_depth` must
lie between 0 and 10 (source line 15), so quantifying a depth bound over
`md ≤ 10` covers every configuration the program accepts. -/

/-- Claim C10: every call to `build_dependency_graph_dfs` restores the
path-set on return — for every package name, depth, and starting state,
the visited set after the call equals the visited set before it. -/
theorem claim_C10_path_set_restored :
    ∀ (p : Params) (r : Nat) (pkg vs : String) (st : BState),
      (build_dependency_graph_dfs p r pkg vs st).visited = st.visited :=
  fun p r pkg vs st => build_visited p r pkg vs st

/-- Claim C8: throughout any run of the Graph Builder, the path-set and
the resolved-set are disjoint — every snapshot taken after a mutation of
either set shows no package in both. -/
theorem claim_C8_sets_disjoint :
    ∀ (p : Params) (root : String) (pr : List String × List String),
      pr ∈ (build_from_root p root).trace → ∀ x ∈ pr.1, x ∉ pr.2 := by
  intro p root pr hpr x hx
  have h0 : TraceInv init_bstate := by
    constructor <;> simp [init_bstate]
  exact (build_traceInv p p.max_depth root p.package_version init_bstate h0).2
    pr hpr x hx

/-- Witness for C8: the snapshot pair recording path-set A and
resolved-set B, taken during the fixture run, is disjoint. -/
theorem claim_C8_witness : ("A" : String) ∉ (["B"] : List String) :=
  claim_C8_sets_disjoint (test_file_params fixtureABC 2) "A" (["A"], ["B"])
    (by decide) "A" (by decide)

set_option maxHeartbeats 3200000 in
/-- Claim C3: a package already in the resolved-set is never re-expanded
(the call returns the state untouched), and in the diamond A to B and C,
both to D, the Dependency Source is called exactly once for D at every
sufficient depth bound accepted by the validator. -/
theorem claim_C3_memoization :
    (∀ (p : Params) (r : Nat) (pkg vs : String) (st : BState),
        pkg ∈ st.resolved → build_dependency_graph_dfs p r pkg vs st = st) ∧
    ∀ md : Nat, md ≤ 10 → 3 ≤ md →
      (build_from_root (test_file_params fixtureDiamond md) "A").fetchLog.count "D" = 1 ∧
      (build_from_root (test_file_params fixtureDiamond md) "A").fetchLog =
        ["A", "B", "D", "C"] :=
  ⟨fun p r pkg vs st h => build_stopped_resolved p r pkg vs st h, by decide⟩

/-- Witness for C3 at a concrete resolved package and depth bound 3. -/
theorem claim_C3_witness :
    build_dependency_graph_dfs (test_file_params fixtureDiamond 3) 2 "Z" "latest"
      ⟨[], [], ["Z"], [], [], []⟩ = ⟨[], [], ["Z"], [], [], []⟩ ∧
    (build_from_root (test_file_params fixtureDiamond 3) "A").fetchLog.count "D" = 1 :=
  ⟨claim_C3_memoization.1 (test_file_params fixtureDiamond 3) 2 "Z" "latest"
      ⟨[], [], ["Z"], [], [], []⟩ (by decide),
   (claim_C3_memoization.2 3 (by decide) (by decide)).1⟩

set_option maxHeartbeats 3200000 in
/-- Claim C4: graph construction terminates on the cyclic relation A to
B, B to A, at every depth bound the validator accepts — for every bound
of at least 2 the result is the same finite two-node graph, the path-set
is restored empty and both nodes end resolved; bounds 0 and 1 give the
truncated graphs. -/
theorem claim_C4_cyclic_terminates :
    (∀ md : Nat, md ≤ 10 → 2 ≤ md →
      (build_from_root (test_file_params fixtureCycle md) "A").graph =
        [("A", ["B"]), ("B", ["A"])] ∧
      (build_from_root (test_file_params fixtureCycle md) "A").resolved =
        ["A", "B"] ∧
      (build_from_root (test_file_params fixtureCycle md) "A").visited = []) ∧
    (build_from_root (test_file_params fixtureCycle 0) "A").graph = [] ∧
    (build_from_root (test_file_params fixtureCycle 1) "A").graph =
      [("A", ["B"])] :=
  ⟨by decide, rfl, rfl⟩

/-- Witness for C4 at depth bound 2. -/
theorem claim_C4_witness :
    (build_from_root (test_file_params fixtureCycle 2) "A").graph =
      [("A", ["B"]), ("B", ["A"])] :=
  (claim_C4_cyclic_terminates.1 2 (by decide) (by decide)).1

/-- Claim C9: a call stopped by the depth guard returns the state
unchanged — nothing is memoized, no adjacency entry is created — and in
the fixture where X is first reached exactly at the depth limit (via B)
and later at smaller depth (directly from A), X is still fully expanded
by the later call: its key is present and it is fetched once. -/
theorem claim_C9_depth_guard_no_memo :
    (∀ (p : Params) (pkg vs : String) (st : BState),
        build_dependency_graph_dfs p 0 pkg vs st = st) ∧
    (build_from_root (test_file_params fixtureLate 2) "A").graph =
      [("A", ["B", "X"]), ("B", ["X"]), ("X", [])] ∧
    (build_from_root (test_file_params fixtureLate 2) "A").fetchLog =
      ["A", "B", "X"] :=
  ⟨fun p pkg vs st => build_depth_zero p pkg vs st, rfl, rfl⟩

/-- Claim C5, counterexample: with traversal mode test_url the
NotImplementedError does not escape to the top level — the traversal
continues (the root ends fully resolved, not aborted) and the error is
caught and logged inside the Graph Builder per-fetch handler. -/
theorem claim_C5_counterexample :
    (build_from_root test_url_params "A").resolved ≠ [] ∧
    (build_from_root test_url_params "A").errLog =
      ["NotImplementedError: test_url mode does not support recursive traversal"] :=
  ⟨by decide, rfl⟩

/-- Claim C5, amended: under mode test_url the Graph Builder catches the
NotImplementedError raised by the Dependency Source, degrades it to
no dependencies, and the run completes normally, producing a one-node
graph and a one-element load order. -/
theorem claim_C5_amended :
    (build_from_root test_url_params "A").resolved = ["A"] ∧
    (build_from_root test_url_params "A").errLog =
      ["NotImplementedError: test_url mode does not support recursive traversal"] ∧
    run_build_and_order test_url_params "A" = ([("A", [])], ["A"]) :=
  ⟨rfl, rfl, rfl⟩

/-- Claim C2, counterexample: on the fixture A to B and C, B to nothing,
C to B, with depth bound 2, the expanded leaf B does get its own
adjacency key (an empty set), and the load order from A is not the
claimed B, C, A. -/
theorem claim_C2_counterexample :
    lookupA (build_from_root (test_file_params fixtureABC 2) "A").graph "B" =
      some [] ∧
    get_dependency_load_order "A"
      (build_from_root (test_file_params fixtureABC 2) "A").graph ≠
      ["B", "C", "A"] :=
  ⟨rfl, by decide⟩

set_option maxHeartbeats 3200000 in
/-- Claim C2, amended: on the fixture A to B and C, B to nothing, C to
B, every accepted depth bound of at least 2 builds exactly the adjacency
mapping A to the set B, C; B to the empty set; C to the set B, and the
load order starting at A is A, C, B. -/
theorem claim_C2_amended :
    ∀ md : Nat, md ≤ 10 → 2 ≤ md →
      (build_from_root (test_file_params fixtureABC md) "A").graph =
        [("A", ["B", "C"]), ("B", []), ("C", ["B"])] ∧
      get_dependency_load_order "A"
        (build_from_root (test_file_params fixtureABC md) "A").graph =
        ["A", "C", "B"] := by
  decide

/-- Witness for the amended C2 at depth bound 2. -/
theorem claim_C2_witness :
    (build_from_root (test_file_params fixtureABC 2) "A").graph =
      [("A", ["B", "C"]), ("B", []), ("C", ["B"])] :=
  (claim_C2_amended 2 (by decide) (by decide)).1

/-! ## Claim theorems: Dependency Source (npm backend) -/

/-- Claim C6: the claim is contradicted by the code — a truthy package
document with no dist-tags and no versions key makes the lookup of the
versions section raise KeyError (the condition at source line 89 tests
the truthy string literal), and a present-but-empty versions dict under
a non-matching specifier raises IndexError at line 101 instead of
returning an empty mapping. -/
theorem claim_C6_raises_on_missing_versions :
    get_direct_dependencies_npm (some ⟨none, none⟩) "latest" =
      .error "KeyError: versions" ∧
    get_direct_dependencies_npm (some ⟨none, some []⟩) "1.0" =
      .error "IndexError: list index out of range" :=
  ⟨rfl, rfl⟩

/-! ## Sorter lemmas -/

/-- Every member of a binding of the graph is in the node universe. -/
lemma mem_allNodesOf_of_mem {g : Graph} {q : String × List String}
    {x : String} (hq : q ∈ g) (h : x = q.1 ∨ x ∈ q.2) :
    x ∈ allNodesOf g := by
  induction g with
  | nil => cases hq
  | cons p rest ih =>
    rcases List.mem_cons.mp hq with rfl | hq'
    · rcases h with rfl | h
      · simp [allNodesOf]
      · simp [allNodesOf, h]
    · simp [allNodesOf, ih hq']

/-- The target of a dependency edge is in the node universe. -/
lemma edge_mem_allNodesOf {g : Graph} {n d : String} {ds : List String}
    (h : lookupA g n = some ds) (hd : d ∈ ds) : d ∈ allNodesOf g := by
  unfold lookupA at h
  cases hfind : g.find? (fun q => q.1 == n) with
  | none => rw [hfind] at h; cases h
  | some q =>
    rw [hfind] at h
    have hq : q.2 = ds := by simpa using h
    exact mem_allNodesOf_of_mem (List.mem_of_find?_eq_some hfind)
      (Or.inr (hq ▸ hd))

/-- Filtering with a pointwise stronger predicate gives a shorter list. -/
lemma filter_length_mono {l : List String} {p q : String → Bool}
    (h : ∀ x, p x = true → q x = true) :
    (l.filter p).length ≤ (l.filter q).length := by
  induction l with
  | nil => simp
  | cons a t ih =>
    rw [List.filter_cons, List.filter_cons]
    by_cases hp : p a = true
    · rw [if_pos hp, if_pos (h a hp)]
      simpa using ih
    · rw [if_neg hp]
      split
      · exact Nat.le_succ_of_le ih
      · exact ih

/-- Filtering with a pointwise stronger predicate that moreover excludes
a present element gives a strictly shorter list. -/
lemma filter_length_lt {l : List String} {p q : String → Bool} {a : String}
    (h : ∀ x, p x = true → q x = true) (ha : a ∈ l)
    (hpa : p a = false) (hqa : q a = true) :
    (l.filter p).length < (l.filter q).length := by
  induction l with
  | nil => cases ha
  | cons b t ih =>
    rw [List.filter_cons, List.filter_cons]
    rcases List.mem_cons.mp ha with rfl | ha'
    · rw [if_neg (by simp [hpa]), if_pos hqa]
      exact Nat.lt_succ_of_le (filter_length_mono h)
    · by_cases hpb : p b = true
      · rw [if_pos hpb, if_pos (h b hpb)]
        simpa using ih ha'
      · rw [if_neg hpb]
        split
        · exact Nat.lt_succ_of_lt (ih ha')
        · exact ih ha'

/-- Growing the visited set does not grow the fuel measure. -/
lemma sortMeasure_mono (g : Graph) {V V' : List String}
    (h : ∀ x ∈ V, x ∈ V') : sortMeasure g V' ≤ sortMeasure g V := by
  unfold sortMeasure
  apply filter_length_mono
  intro x hx
  simp only [decide_eq_true_eq] at hx ⊢
  exact fun hv => hx (h x hv)

/-- Visiting a fresh node of the universe strictly shrinks the fuel
measure. -/
lemma sortMeasure_insert_lt (g : Graph) {V : List String} {n : String}
    (hn : n ∈ allNodesOf g) (hnv : n ∉ V) :
    sortMeasure g (insertS n V) < sortMeasure g V := by
  unfold sortMeasure
  apply filter_length_lt (a := n) _ hn
  · simp [mem_insertS]
  · simp [hnv]
  · intro x hx
    simp only [decide_eq_true_eq] at hx ⊢
    intro hv
    exact hx (mem_insertS.mpr (Or.inr hv))

/-- The measure of the empty visited set is the universe size. -/
lemma sortMeasure_nil (g : Graph) :
    sortMeasure g [] = (allNodesOf g).length := by
  unfold sortMeasure
  simp

/-- The empty order is dependents-first. -/
lemma orderedOk_nil (g : Graph) : OrderedOk g [] := by
  intro l1 n l2 h
  cases l1 <;> simp at h

/-- Prepending a node whose dependencies (if it has an adjacency entry)
are already in the order keeps the order dependents-first. -/
lemma orderedOk_cons {g : Graph} {L : List String} {n : String}
    (hL : OrderedOk g L)
    (hdeps : ∀ ds, lookupA g n = some ds → ∀ d ∈ ds, d ∈ L) :
    OrderedOk g (n :: L) := by
  intro l1 m l2 heq ds hds d hd
  cases l1 with
  | nil =>
    simp only [List.nil_append, List.cons.injEq] at heq
    obtain ⟨rfl, rfl⟩ := heq
    exact hdeps ds hds d hd
  | cons a t =>
    simp only [List.cons_append, List.cons.injEq] at heq
    obtain ⟨rfl, hL'⟩ := heq
    exact hL t m l2 hL' ds hds d hd

/-- In a duplicate-free dependents-first order, every member with an
adjacency entry sits strictly in front of each of its dependencies. -/
lemma orderedOk_indexOf {g : Graph} :
    ∀ L : List String, L.Nodup → OrderedOk g L →
      ∀ n ds d, n ∈ L → lookupA g n = some ds → d ∈ ds →
        d ∈ L ∧ L.indexOf n < L.indexOf d := by
  intro L
  induction L with
  | nil => intro _ _ n ds d hn; cases hn
  | cons a t ih =>
    intro hnd hord n ds d hn hds hd
    obtain ⟨hat, htnd⟩ := List.nodup_cons.mp hnd
    rcases List.mem_cons.mp hn with rfl | hn'
    · have hdt : d ∈ t := hord [] n t rfl ds hds d hd
      have hdn : n ≠ d := by rintro rfl; exact hat hdt
      refine ⟨List.mem_cons_of_mem _ hdt, ?_⟩
      rw [List.indexOf_cons_self, List.indexOf_cons_ne t hdn]
      exact Nat.succ_pos _
    · have hord' : OrderedOk g t := by
        intro l1 m l2 he ds' hds' d' hd'
        exact hord (a :: l1) m l2 (by rw [he]; rfl) ds' hds' d' hd'
      obtain ⟨hdt, hlt⟩ := ih htnd hord' n ds d hn' hds hd
      have hna : a ≠ n := by rintro rfl; exact hat hn'
      have hda : a ≠ d := by rintro rfl; exact hat hdt
      refine ⟨List.mem_cons_of_mem _ hdt, ?_⟩
      rw [List.indexOf_cons_ne t hna, List.indexOf_cons_ne t hda]
      exact Nat.succ_lt_succ hlt

/-- One step of the dependency loop over an already-black dependency:
the loop moves on with the same state. -/
lemma sortDeps_cons_visited {f : String → SortSt → SortRes}
    {parent d : String} {rest : List String} {st : SortSt}
    (hv : d ∈ st.visited) (hs : d ∉ st.stack) :
    sortDeps f parent (d :: rest) st = sortDeps f parent rest st := by
  simp only [sortDeps]
  rw [if_neg (not_not_intro hv), if_neg hs]

/-- One step of the dependency loop over a white dependency whose
recursive call succeeds: the loop continues in the returned state. -/
lemma sortDeps_cons_rec {f : String → SortSt → SortRes}
    {parent d : String} {rest : List String} {st st1 : SortSt}
    (hv : d ∉ st.visited) (h : f d st = .ok st1) :
    sortDeps f parent (d :: rest) st = sortDeps f parent rest st1 := by
  simp only [sortDeps]
  rw [if_pos hv, h]

/-- Unfolding `_dfs_sort` on a node with no adjacency entry that is not
yet visited: the node is prepended and marked visited. -/
lemma dfs_sort_leaf_ok {g : Graph} {fuel : Nat} {node : String}
    {st : SortSt} (hlook : lookupA g node = none)
    (hnv : node ∉ st.visited) :
    dfs_sort g (fuel + 1) node st =
      .ok ⟨insertS node st.visited, st.stack, node :: st.order⟩ := by
  unfold dfs_sort
  rw [hlook, if_neg hnv]

/-- Unfolding `_dfs_sort` on a node with an adjacency entry whose
dependency loop succeeds: the node is removed from the stack and
prepended to the order. -/
lemma dfs_sort_node_ok {g : Graph} {fuel : Nat} {node : String}
    {st st2 : SortSt} {ds : List String}
    (hlook : lookupA g node = some ds)
    (hrun : sortDeps (fun d s => dfs_sort g fuel d s) node ds
      { st with visited := insertS node st.visited,
                stack := insertS node st.stack } = .ok st2) :
    dfs_sort g (fuel + 1) node st =
      .ok ⟨st2.visited, st2.stack.erase node, node :: st2.order⟩ := by
  unfold dfs_sort
  rw [hlook]
  simp only [hrun]

/-- Master lemma for the dependency loop of `_dfs_sort`: given that the
recursive call satisfies its contract (the induction hypothesis on
fuel), the loop over the dependencies of `parent` succeeds, restores the
stack, grows visited and order monotonically, puts every processed
dependency into the order, and maintains the coloring invariant. The
rank hypothesis rules out the cycle branch: every stack member outranks
`parent`, while dependencies rank strictly below it. -/
lemma sortDeps_master (g : Graph) (start : String) (rank : String → Nat)
    (Hrank : ∀ n d, Reaches g start n → EdgeOf g n d → rank d < rank n)
    (fuel : Nat)
    (IH : ∀ node st, SortInv g st → node ∉ st.visited →
      node ∈ allNodesOf g → sortMeasure g st.visited < fuel →
      Reaches g start node → (∀ x ∈ st.stack, rank node < rank x) →
      ∃ st', dfs_sort g fuel node st = .ok st' ∧ SortPost g node st st') :
    ∀ (ds : List String) (st : SortSt) (parent : String),
      (∀ d ∈ ds, EdgeOf g parent d) → SortInv g st →
      sortMeasure g st.visited < fuel → Reaches g start parent →
      (∀ x ∈ st.stack, rank parent ≤ rank x) →
      ∃ st', sortDeps (fun d s => dfs_sort g fuel d s) parent ds st = .ok st' ∧
        st'.stack = st.stack ∧
        (∀ x ∈ st.visited, x ∈ st'.visited) ∧
        (∀ x ∈ st.order, x ∈ st'.order) ∧
        (∀ d ∈ ds, d ∈ st'.order) ∧
        SortInv g st' := by
  intro ds
  induction ds with
  | nil =>
    intro st parent _ hinv _ _ _
    exact ⟨st, rfl, rfl, fun x h => h, fun x h => h,
      fun d hd => absurd hd (List.not_mem_nil d), hinv⟩
  | cons d rest ihds =>
    intro st parent hds hinv hm hreach hstk
    have hedge : EdgeOf g parent d := hds d (List.mem_cons_self d rest)
    have hrest : ∀ x ∈ rest, EdgeOf g parent x :=
      fun x hx => hds x (List.mem_cons_of_mem d hx)
    by_cases hv : d ∈ st.visited
    · have hdstk : d ∉ st.stack := by
        intro hmem
        exact absurd (Hrank parent d hreach hedge)
          (Nat.not_lt.mpr (hstk d hmem))
      have hdord : d ∈ st.order := (hinv.2.1 d).mpr ⟨hv, hdstk⟩
      obtain ⟨st', hrun, hst, hvm, hom, hrord, hinv'⟩ :=
        ihds st parent hrest hinv hm hreach hstk
      refine ⟨st', ?_, hst, hvm, hom, ?_, hinv'⟩
      · rw [sortDeps_cons_visited hv hdstk]
        exact hrun
      · intro x hx
        rcases List.mem_cons.mp hx with rfl | hx'
        · exact hom x hdord
        · exact hrord x hx'
    · obtain ⟨es, hls, hms⟩ := hedge
      have hdall : d ∈ allNodesOf g := edge_mem_allNodesOf hls hms
      have hreachd : Reaches g start d := Reaches.step hreach ⟨es, hls, hms⟩
      have hrankd : rank d < rank parent := Hrank parent d hreach ⟨es, hls, hms⟩
      have hstkd : ∀ x ∈ st.stack, rank d < rank x :=
        fun x hx => lt_of_lt_of_le hrankd (hstk x hx)
      obtain ⟨st1, hcall, hst1, hvm1, hdv1, hom1, hdo1, hinv1⟩ :=
        IH d st hinv hv hdall hm hreachd hstkd
      have hm1 : sortMeasure g st1.visited < fuel :=
        lt_of_le_of_lt (sortMeasure_mono g hvm1) hm
      have hstk1 : ∀ x ∈ st1.stack, rank parent ≤ rank x := by
        rw [hst1]; exact hstk
      obtain ⟨st', hrun, hst, hvm, hom, hrord, hinv'⟩ :=
        ihds st1 parent hrest hinv1 hm1 hreach hstk1
      refine ⟨st', ?_, by rw [hst, hst1],
        fun x hx => hvm x (hvm1 x hx),
        fun x hx => hom x (hom1 x hx), ?_, hinv'⟩
      · rw [sortDeps_cons_rec hv hcall]
        exact hrun
      · intro x hx
        rcases List.mem_cons.mp hx with rfl | hx'
        · exact hom x hdo1
        · exact hrord x hx'

/-- Master lemma for `_dfs_sort`: on a graph whose reachable part admits
a rank function decreasing along dependency edges (no reachable cycle),
a call on an unvisited reachable node with enough fuel succeeds and
satisfies the postcondition: stack restored, visited and order grown,
the node emitted, the coloring invariant maintained. -/
lemma dfs_sort_master (g : Graph) (start : String) (rank : String → Nat)
    (Hrank : ∀ n d, Reaches g start n → EdgeOf g n d → rank d < rank n) :
    ∀ fuel node st, SortInv g st → node ∉ st.visited →
      node ∈ allNodesOf g → sortMeasure g st.visited < fuel →
      Reaches g start node → (∀ x ∈ st.stack, rank node < rank x) →
      ∃ st', dfs_sort g fuel node st = .ok st' ∧ SortPost g node st st' := by
  intro fuel
  induction fuel with
  | zero =>
    intro node st _ _ _ hm
    exact absurd hm (Nat.not_lt_zero _)
  | succ fuel ih =>
    intro node st hinv hnv hall hm hreach hstk
    have hnstk : node ∉ st.stack := fun hmem => Nat.lt_irrefl _ (hstk node hmem)
    obtain ⟨hnodup, hmemiff, hord⟩ := hinv
    have hnorder : node ∉ st.order := fun hmem => hnv ((hmemiff node).mp hmem).1
    cases hlook : lookupA g node with
    | none =>
      refine ⟨⟨insertS node st.visited, st.stack, node :: st.order⟩,
        dfs_sort_leaf_ok hlook hnv, rfl,
        fun x hx => mem_insertS.mpr (Or.inr hx),
        mem_insertS.mpr (Or.inl rfl),
        fun x hx => List.mem_cons_of_mem _ hx,
        List.mem_cons_self _ _, ?_, ?_, ?_⟩
      · exact List.nodup_cons.mpr ⟨hnorder, hnodup⟩
      · intro x
        constructor
        · intro hx
          rcases List.mem_cons.mp hx with rfl | hx'
          · exact ⟨mem_insertS.mpr (Or.inl rfl), hnstk⟩
          · obtain ⟨hvx, hsx⟩ := (hmemiff x).mp hx'
            exact ⟨mem_insertS.mpr (Or.inr hvx), hsx⟩
        · rintro ⟨hvx, hsx⟩
          rcases mem_insertS.mp hvx with rfl | hvx'
          · exact List.mem_cons_self _ _
          · exact List.mem_cons_of_mem _ ((hmemiff x).mpr ⟨hvx', hsx⟩)
      · refine orderedOk_cons hord ?_
        intro ds' hds'
        rw [hlook] at hds'
        cases hds'
    | some ds =>
      have hinv1 : SortInv g ⟨insertS node st.visited, insertS node st.stack,
          st.order⟩ := by
        refine ⟨hnodup, ?_, hord⟩
        intro x
        constructor
        · intro hx
          obtain ⟨hvx, hsx⟩ := (hmemiff x).mp hx
          have hxn : x ≠ node := fun he => hnv (he ▸ hvx)
          refine ⟨mem_insertS.mpr (Or.inr hvx), ?_⟩
          intro hmem
          rcases mem_insertS.mp hmem with he | hmem'
          · exact hxn he
          · exact hsx hmem'
        · rintro ⟨hvx, hsx⟩
          have hxn : x ≠ node :=
            fun he => hsx (he ▸ mem_insertS.mpr (Or.inl rfl))
          rcases mem_insertS.mp hvx with he | hvx'
          · exact absurd he hxn
          · exact (hmemiff x).mpr
              ⟨hvx', fun h => hsx (mem_insertS.mpr (Or.inr h))⟩
      have hm1 : sortMeasure g (insertS node st.visited) < fuel := by
        have h1 := sortMeasure_insert_lt g hall hnv
        omega
      have hds : ∀ d ∈ ds, EdgeOf g node d := fun d hd => ⟨ds, hlook, hd⟩
      have hstk1 : ∀ x ∈ insertS node st.stack, rank node ≤ rank x := by
        intro x hx
        rcases mem_insertS.mp hx with rfl | hx'
        · exact Nat.le_refl _
        · exact Nat.le_of_lt (hstk x hx')
      obtain ⟨st2, hrun, hst2, hvm2, hom2, hdord2, hinv2⟩ :=
        sortDeps_master g start rank Hrank fuel ih ds
          ⟨insertS node st.visited, insertS node st.stack, st.order⟩
          node hds hinv1 hm1 hreach hstk1
      have hins_st : insertS node st.stack = node :: st.stack := by
        simp [insertS, hnstk]
      have hstack2 : st2.stack = node :: st.stack := by
        rw [hst2]; exact hins_st
      have hnode_stack2 : node ∈ st2.stack := by
        rw [hstack2]; exact List.mem_cons_self _ _
      have herase : st2.stack.erase node = st.stack := by
        rw [hstack2]; exact List.erase_cons_head _ _
      obtain ⟨hnodup2, hmemiff2, hord2⟩ := hinv2
      have hnord2 : node ∉ st2.order :=
        fun hmem => ((hmemiff2 node).mp hmem).2 hnode_stack2
      refine ⟨⟨st2.visited, st2.stack.erase node, node :: st2.order⟩,
        dfs_sort_node_ok hlook hrun, ?_,
        fun x hx => hvm2 x (mem_insertS.mpr (Or.inr hx)),
        hvm2 node (mem_insertS.mpr (Or.inl rfl)),
        fun x hx => List.mem_cons_of_mem _ (hom2 x hx),
        List.mem_cons_self _ _, ?_, ?_, ?_⟩
      · exact herase
      · exact List.nodup_cons.mpr ⟨hnord2, hnodup2⟩
      · intro x
        constructor
        · intro hx
          rcases List.mem_cons.mp hx with rfl | hx'
          · refine ⟨hvm2 x (mem_insertS.mpr (Or.inl rfl)), ?_⟩
            rw [herase]
            exact hnstk
          · obtain ⟨hvx, hsx⟩ := (hmemiff2 x).mp hx'
            refine ⟨hvx, ?_⟩
            rw [herase]
            intro hmem
            exact hsx (by rw [hstack2]; exact List.mem_cons_of_mem _ hmem)
        · rintro ⟨hvx, hsx⟩
          rw [herase] at hsx
          by_cases hxn : x = node
          · subst hxn; exact List.mem_cons_self _ _
          · refine List.mem_cons_of_mem _ ((hmemiff2 x).mpr ⟨hvx, ?_⟩)
            rw [hstack2]
            intro hmem
            rcases List.mem_cons.mp hmem with rfl | h
            · exact hxn rfl
            · exact hsx h
      · refine orderedOk_cons hord2 ?_
        intro ds' hds' d hd
        rw [hlook] at hds'
        injection hds' with he
        exact hdord2 d (by rw [he]; exact hd)

/-- Specification of `get_dependency_load_order` on a start node of a
graph whose reachable part admits a decreasing rank: the sort succeeds
and the returned list is the emitted order, which satisfies the
coloring invariant and contains the start node. -/
lemma get_order_spec (g : Graph) (start : String) (rank : String → Nat)
    (hs : start ∈ allNodesOf g)
    (Hrank : ∀ n d, Reaches g start n → EdgeOf g n d → rank d < rank n) :
    ∃ st', dfs_sort g ((allNodesOf g).length + 1) start ⟨[], [], []⟩ =
        .ok st' ∧
      get_dependency_load_order start g = st'.order ∧
      SortInv g st' ∧ start ∈ st'.order := by
  have hinv0 : SortInv g ⟨[], [], []⟩ := by
    refine ⟨List.nodup_nil, ?_, orderedOk_nil g⟩
    intro x
    simp
  have hm0 : sortMeasure g ([] : List String) < (allNodesOf g).length + 1 := by
    rw [sortMeasure_nil]
    omega
  obtain ⟨st', hok, hstk, hvm, hvnode, hom, hor, hinv⟩ :=
    dfs_sort_master g start rank Hrank ((allNodesOf g).length + 1) start
      ⟨[], [], []⟩ hinv0 (List.not_mem_nil start) hs hm0 Reaches.refl
      (by intro x hx; cases hx)
  refine ⟨st', hok, ?_, hinv, hor⟩
  unfold get_dependency_load_order
  rw [if_pos hs, hok]

/-! ## Claim theorems: Topological Sorter -/

/-- Claim C1, counterexample: on the one-edge graph A depends on B, the
returned sequence is A before B, so the dependency B does not appear
before the dependent A as the claim states. -/
theorem claim_C1_counterexample :
    ¬ ((get_dependency_load_order "A" [("A", ["B"])]).indexOf "B" <
       (get_dependency_load_order "A" [("A", ["B"])]).indexOf "A") ∧
    get_dependency_load_order "A" [("A", ["B"])] = ["A", "B"] :=
  ⟨by decide, by decide⟩

/-- Claim C1, amended: for every adjacency graph whose part reachable
from the start node has no cycles (witnessed by a rank function that
strictly decreases along dependency edges), the sequence returned by
get_dependency_load_order contains the start node and places every node
strictly BEFORE all of its direct dependencies (each dependency appears
after every node depending on it — the inverse of the claimed
direction). -/
theorem claim_C1_amended :
    ∀ (g : Graph) (start : String) (rank : String → Nat),
      start ∈ allNodesOf g →
      (∀ n d, Reaches g start n → EdgeOf g n d → rank d < rank n) →
      start ∈ get_dependency_load_order start g ∧
      ∀ n ds d, n ∈ get_dependency_load_order start g →
        lookupA g n = some ds → d ∈ ds →
        d ∈ get_dependency_load_order start g ∧
        (get_dependency_load_order start g).indexOf n <
          (get_dependency_load_order start g).indexOf d := by
  intro g start rank hs Hrank
  obtain ⟨st', hok, horder, hinv, hstart⟩ :=
    get_order_spec g start rank hs Hrank
  rw [horder]
  exact ⟨hstart, fun n ds d hn hds hd =>
    orderedOk_indexOf st'.order hinv.1 hinv.2.2 n ds d hn hds hd⟩

/-- Witness for the amended C1 on the graph A depends on B, with the
rank function sending A to 1 and everything else to 0. -/
theorem claim_C1_witness :
    ("A" : String) ∈ get_dependency_load_order "A" [("A", ["B"])] :=
  (claim_C1_amended [("A", ["B"])] "A" (fun s => if s = "A" then 1 else 0)
    (by decide)
    (by
      intro n d _ hedge
      obtain ⟨ds, hl, hd⟩ := hedge
      by_cases hn : n = "A"
      · subst hn
        have hlv : lookupA [("A", ["B"])] "A" = some ["B"] := rfl
        rw [hlv] at hl
        injection hl with he
        have hdb : d = "B" := by
          have : d ∈ ["B"] := by rw [he]; exact hd
          simpa using this
        subst hdb
        decide
      · exfalso
        have hnone : lookupA [("A", ["B"])] n = none := by
          unfold lookupA
          have hb : (("A" : String) == n) = false := by
            simp only [beq_eq_false_iff_ne]
            exact Ne.symm hn
          simp [List.find?, hb]
        rw [hnone] at hl
        cases hl)).1

/-- Claim C7: a cycle detected by the sorter aborts the whole operation
and yields the empty order (the ValueError is caught by the caller), and
on the two-cycle A to B to A starting at A the sorter reports the cycle
edge B to A and returns no order. -/
theorem claim_C7_cycle_aborts :
    (∀ (start : String) (g : Graph) (n d : String),
        dfs_sort g ((allNodesOf g).length + 1) start ⟨[], [], []⟩ =
          .cycleErr n d →
        get_dependency_load_order start g = []) ∧
    dfs_sort fixtureCycle ((allNodesOf fixtureCycle).length + 1) "A"
      ⟨[], [], []⟩ = .cycleErr "B" "A" ∧
    get_dependency_load_order "A" fixtureCycle = [] := by
  refine ⟨?_, by decide, by decide⟩
  intro start g n d h
  unfold get_dependency_load_order
  split
  · rw [h]
  · rfl

/-- Witness for C7 on the two-cycle graph. -/
theorem claim_C7_witness : get_dependency_load_order "A" fixtureCycle = [] :=
  claim_C7_cycle_aborts.1 "A" fixtureCycle "B" "A" (by decide)
